import Mathlib

/-!
# imagesync: registry discovery and reconciliation

A shallow embedding of `src/main.go`.  Go strings are byte sequences; they are
modelled as lists of characters (`Str`).  Every string operation used by the
program compares elements for equality only, so a byte `b` may be read as the
character with code `b`.  Calls that leave the process (HTTP round trips, the
image copy, the database) are modelled by explicit responses handed to the
functions: a server is a function from requests to responses, and a loop that
the source writes as `for { ... }` carries a fuel argument.
-/

namespace ImageSync

/-- A Go `string`. -/
abbrev Str := List Char

/-! ## The `strings` package -/

/-- Go `strings.HasPrefix(s, p)`. -/
def hasPrefix (s p : Str) : Bool := p.isPrefixOf s

/-- Go `strings.HasSuffix(s, p)`. -/
def hasSuffix (s p : Str) : Bool := p.isSuffixOf s

/-- Go `strings.TrimPrefix(s, p)`: `s` without the leading `p`, once. -/
def trimPrefix (s p : Str) : Str :=
  if hasPrefix s p then s.drop p.length else s

/-- Go `strings.TrimSuffix(s, p)`: `s` without the trailing `p`, once. -/
def trimSuffix (s p : Str) : Str :=
  if hasSuffix s p then s.take (s.length - p.length) else s

/-- Go `strings.Index(s, c)` for a one-byte `c`; `none` stands for `-1`. -/
def indexByte : Str → Char → Option Nat
  | [], _ => none
  | x :: xs, c => if x = c then some 0 else (indexByte xs c).map (· + 1)

/-- Go `strings.LastIndex(s, c)` for a one-byte `c`; `none` stands for `-1`. -/
def lastIndexByte : Str → Char → Option Nat
  | [], _ => none
  | x :: xs, c =>
    match lastIndexByte xs c with
    | some i => some (i + 1)
    | none => if x = c then some 0 else none

/-- Go `strings.Contains(s, sub)`. -/
def contains : Str → Str → Bool
  | [], sub => sub.isEmpty
  | c :: cs, sub => hasPrefix (c :: cs) sub || contains cs sub

/-- Go `strings.Split(s, "/")`: the pieces between separators, never empty. -/
def split : Str → List Str
  | [] => [[]]
  | c :: cs =>
    if c = '/' then [] :: split cs
    else
      match split cs with
      | p :: ps => (c :: p) :: ps
      | [] => [[c]]

/-- Go `strings.Join(parts, "/")`. -/
def join (parts : List Str) : Str := List.intercalate ['/'] parts

/-- Go slice expression `s[lo:hi]`; `none` is the run-time panic
    "slice bounds out of range". -/
def slice (s : Str) (lo hi : Nat) : Option Str :=
  if lo ≤ hi ∧ hi ≤ s.length then some ((s.take hi).drop lo) else none

/-! ## Errors -/

/-- What the program's error values and its abnormal ends distinguish. -/
inductive Err where
  /-- Error of `client.Do`: the round trip itself failed. -/
  | request : Err
  /-- Error built from a non-accepted HTTP status and the response body. -/
  | api (status : Nat) (body : Str) : Err
  /-- Error of `json.NewDecoder(...).Decode`. -/
  | parse : Err
  /-- Error `unsupported type`. -/
  | unsupported (typ : Str) : Err
  /-- Go run-time panic (slice bounds out of range). -/
  | panic : Err
  /-- Error of `http.NewRequest`: the URL does not parse. -/
  | badURL : Err
  deriving DecidableEq, Repr

deriving instance DecidableEq for Except

/-! ## `main`: path resolution (lines 510-553) -/

/-- Lines 511-517: `os.Args[1]` when present, and `"/library"` when the
    argument is absent or empty. -/
def inputPathOf (args : List Str) : Str :=
  let inputPath : Str := if args.length > 1 then args.getD 1 [] else []
  if inputPath = [] then "/library".toList else inputPath

/-- Lines 529-535: strip one leading `/`, then cut at the last colon.
    Returns `(path, specificTag)`. -/
def parsePath (inputPath : Str) : Str × Str :=
  let path := trimPrefix inputPath ['/']
  match lastIndexByte path ':' with
  | some colonIdx => (path.take colonIdx, path.drop (colonIdx + 1))
  | none => (path, [])

/-- Lines 537-540: the listing prefix built from `path`. -/
def listingPrefix (path : Str) : Str :=
  if path ≠ [] ∧ hasSuffix path ['/'] = false then path ++ ['/'] else path

/-- What lines 528-553 leave behind for the loops. -/
structure Resolution where
  /-- Argument given to `listRepositories`. -/
  pfx : Str
  repos : List Str
  isSpecific : Bool
  specificTag : Str
  deriving DecidableEq, Repr

/-- Lines 528-553.  `listing` is `listRepositories` on the source registry as a
    function of its prefix argument; an error is `log.Fatalf`. -/
def resolve (listing : Str → Except Err (List Str)) (inputPath : Str) :
    Except Err Resolution :=
  let (path, specificTag) := parsePath inputPath
  let pfx := listingPrefix path
  match listing pfx with
  | .error e => .error e
  | .ok repos =>
    if repos.length = 0 ∧ path ≠ [] then
      .ok { pfx := pfx, repos := [trimSuffix pfx ['/']], isSpecific := true,
            specificTag := specificTag }
    else
      .ok { pfx := pfx, repos := repos, isSpecific := false, specificTag := specificTag }

/-- Tag selection policy of the spec, naming the three branches of lines 574-589. -/
inductive TagSelector where
  | Explicit (tag : Str) : TagSelector
  | LatestOnly : TagSelector
  | AllTags : TagSelector
  deriving DecidableEq, Repr

/-- Which branch of lines 574-589 is taken. -/
def tagSelector (r : Resolution) : TagSelector :=
  if r.specificTag ≠ [] then .Explicit r.specificTag
  else if r.isSpecific then .AllTags
  else .LatestOnly

/-- Lines 573-589: the tags of one repository.  `listTags` and `getLatestTag`
    are the source registry's answers; an error is the `continue` of the
    outer loop. -/
def repoTags (listTags : Str → Except Err (List Str)) (getLatestTag : Str → Except Err Str)
    (r : Resolution) (repoPath : Str) : Except Err (List Str) :=
  if r.specificTag ≠ [] then .ok [r.specificTag]
  else if r.isSpecific then listTags repoPath
  else
    match getLatestTag repoPath with
    | .error e => .error e
    | .ok tag => .ok [tag]

/-- The `(repoPath, tag)` pairs visited by the nested loops of lines 572 and 591,
    in order. -/
def workItems (listTags : Str → Except Err (List Str)) (getLatestTag : Str → Except Err Str)
    (r : Resolution) : List (Str × Str) :=
  r.repos.flatMap fun repoPath =>
    match repoTags listTags getLatestTag r repoPath with
    | .error _ => []
    | .ok tags => tags.map fun tag => (repoPath, tag)

/-! ## HTTP round trips -/

/-- What the program reads from a response. -/
structure HttpResp where
  /-- Field `resp.StatusCode`. -/
  status : Nat
  /-- Raw body, as quoted in error messages. -/
  body : Str
  /-- Name list decoded from the JSON body; `none` when `Decode` fails. -/
  names : Option (List Str)
  /-- Value of `resp.Header.Get("Link")`, empty when the header is absent. -/
  link : Str
  deriving DecidableEq, Repr

/-- Lines 367-394.  `answer` is what `client.Do` gave for the manifest request
    `/v2/{repoPath}/manifests/{tag}`; `none` is a failed round trip. -/
def imageExistsInDst (answer : Option HttpResp) : Except Err Bool :=
  match answer with
  | none => .error .request
  | some resp =>
    if resp.status = 200 then .ok true
    else if resp.status = 404 then .ok false
    else .error (.api resp.status resp.body)

/-! ## `main`: the sync loop (lines 591-623) -/

/-- Results the outside world gives for one work item: the destination's
    answer to the manifest request, and the results `syncImageWithZstd` and
    `storeRecord` give if they are called. -/
structure ItemOutcome where
  dst : Option HttpResp
  copy : Except Err Unit
  store : Except Err Unit

/-- Calls made by the loop body. -/
inductive Event where
  | check (repoPath tag : Str) : Event
  | copy (repoPath tag : Str) : Event
  | store (repoPath tag : Str) : Event
  deriving DecidableEq, Repr

/-- Body of the loop of lines 591-623 for one `(repoPath, tag)`. -/
def syncItem (repoPath tag : Str) (o : ItemOutcome) : List Event :=
  match imageExistsInDst o.dst with
  | .error _ => [.check repoPath tag]
  | .ok found =>
    if found then [.check repoPath tag, .store repoPath tag]
    else
      match o.copy with
      | .error _ => [.check repoPath tag, .copy repoPath tag]
      | .ok _ => [.check repoPath tag, .copy repoPath tag, .store repoPath tag]

/-- Loops of lines 572 and 591 over the work items in visiting order, each with
    the results it meets. -/
def syncLoop : List ((Str × Str) × ItemOutcome) → List Event
  | [] => []
  | ((repoPath, tag), o) :: rest => syncItem repoPath tag o ++ syncLoop rest

/-! ## Harbor listing (lines 37-167) -/

/-- Requests of the Harbor client: `projects page` is
    `GET /api/v2.0/projects?page=..&page_size=100`, `repositories project page` is
    `GET /api/v2.0/projects/{project}/repositories?page=..&page_size=100`. -/
inductive HarborReq where
  | projects (page : Nat) : HarborReq
  | repositories (project : Str) (page : Nat) : HarborReq
  deriving DecidableEq, Repr

/-- Result of a listing: the requests issued, in order, and the returned value;
    `none` when the fuel ran out before the loop ended. -/
abbrev Listing (ρ : Type) := List ρ × Option (Except Err (List Str))

/-- The loops of lines 42-78 and 88-124, which differ in the request only:
    `mk page` is the request for `page`, `names` the slice built so far.  The
    counter is a Go `int`; every page but the last adds a name to `names`, so
    it stays far below the `int` range. -/
def harborPages (server : HarborReq → Option HttpResp) (mk : Nat → HarborReq) :
    Nat → Nat → List Str → Listing HarborReq
  | 0, _, _ => ([], none)
  | fuel + 1, page, names =>
    match server (mk page) with
    | none => ([mk page], some (.error .request))
    | some resp =>
      if resp.status ≠ 200 then ([mk page], some (.error (.api resp.status resp.body)))
      else
        match resp.names with
        | none => ([mk page], some (.error .parse))
        | some pageList =>
          if pageList.length = 0 then ([mk page], some (.ok names))
          else
            let rest := harborPages server mk fuel (page + 1) (names ++ pageList)
            (mk page :: rest.1, rest.2)

/-- Lines 37-81. -/
def listProjectsHarbor (server : HarborReq → Option HttpResp) (fuel : Nat) :
    Listing HarborReq :=
  harborPages server .projects fuel 1 []

/-- Lines 83-127. -/
def listReposInProjectHarbor (server : HarborReq → Option HttpResp) (fuel : Nat)
    (project : Str) : Listing HarborReq :=
  harborPages server (.repositories project) fuel 1 []

/-- Lines 137-145: the loop over the projects, `repos` the slice built so far. -/
def reposOfProjects (server : HarborReq → Option HttpResp) (fuel : Nat) :
    List Str → List Str → Listing HarborReq
  | [], repos => ([], some (.ok repos))
  | project :: rest, repos =>
    match listReposInProjectHarbor server fuel project with
    | (t, some (.ok projRepos)) =>
      let more := reposOfProjects server fuel rest (repos ++ projRepos)
      (t ++ more.1, more.2)
    | (t, other) => (t, other)

/-- Lines 129-167. -/
def listRepositoriesHarbor (server : HarborReq → Option HttpResp) (fuel : Nat)
    (pfx : Str) : Listing HarborReq :=
  if pfx = [] then
    match listProjectsHarbor server fuel with
    | (t, some (.ok projects)) =>
      let more := reposOfProjects server fuel projects []
      (t ++ more.1, more.2)
    | (t, other) => (t, other)
  else
    let pfx := trimSuffix pfx ['/']
    let parts := split pfx
    let project := parts.headD []
    let subPrefix : Str := if parts.length > 1 then join (parts.drop 1) ++ ['/'] else []
    match listReposInProjectHarbor server fuel project with
    | (t, some (.ok projRepos)) =>
      let prefixWithSlash := pfx ++ ['/']
      (t, some (.ok (projRepos.filter fun r => subPrefix = [] || hasPrefix r prefixWithSlash)))
    | (t, other) => (t, other)

/-! ## Registry v2 listing (lines 169-283) -/

/-- Host part used by lines 170, 236 and 368. -/
def hostOf (urlBase : Str) : Str :=
  trimPrefix (trimPrefix urlBase "https://".toList) "http://".toList

/-- Lines 212-220 and 271-279: the value of `nextURL` after a response with
    `Link` header `link`.  The empty string ends the loop. -/
def nextURL (host link : Str) : Except Err Str :=
  if link ≠ [] ∧ contains link "rel=\"next\"".toList = true then
    match indexByte link '<', indexByte link '>' with
    | some start, some stop =>
      match slice link (start + 1) stop with
      | some target => .ok ("https://".toList ++ host ++ target)
      | none => .error .panic
    | _, _ => .ok []
  else .ok []

/-- The loops of lines 180-221 and 242-280: `keep` is the filter applied to the
    names of a page, `url` the current `nextURL`, `names` the slice built so
    far.  Requests are written as their URLs.  `newRequest url` tells whether
    `http.NewRequest` returns a request for `url`; when it returns an error
    the function returns it and no request is issued (lines 181-184 and
    243-246). -/
def registryPages (newRequest : Str → Bool) (server : Str → Option HttpResp) (host : Str)
    (keep : Str → Bool) (fuel : Nat) (url : Str) (names : List Str) : Listing Str :=
  if url = [] then ([], some (.ok names))
  else
    match fuel with
    | 0 => ([], none)
    | fuel + 1 =>
      if newRequest url = false then ([], some (.error .badURL))
      else
        match server url with
        | none => ([url], some (.error .request))
        | some resp =>
          if resp.status ≠ 200 then ([url], some (.error (.api resp.status resp.body)))
          else
            match resp.names with
            | none => ([url], some (.error .parse))
            | some pageList =>
              match nextURL host resp.link with
              | .error e => ([url], some (.error e))
              | .ok next =>
                let rest := registryPages newRequest server host keep fuel next
                  (names ++ pageList.filter keep)
                (url :: rest.1, rest.2)

/-- Lines 169-224. -/
def listRepositoriesRegistry (newRequest : Str → Bool) (server : Str → Option HttpResp)
    (fuel : Nat) (urlBase pfx : Str) : Listing Str :=
  let host := hostOf urlBase
  let pfx := trimSuffix pfx ['/']
  let pfx := if pfx ≠ [] then pfx ++ ['/'] else pfx
  registryPages newRequest server host (fun r => pfx = [] || hasPrefix r pfx) fuel
    ("https://".toList ++ host ++ "/v2/_catalog?n=100".toList) []

/-- Lines 235-283.  `pathEscape` is `url.PathEscape`. -/
def listTags (pathEscape : Str → Str) (newRequest : Str → Bool)
    (server : Str → Option HttpResp) (fuel : Nat) (urlBase repoPath : Str) : Listing Str :=
  let host := hostOf urlBase
  registryPages newRequest server host (fun _ => true) fuel
    ("https://".toList ++ host ++ "/v2/".toList ++ pathEscape repoPath ++
      "/tags/list?n=100".toList) []

/-- Servers of the two backends; `newRequest` tells which URLs
    `http.NewRequest` accepts in the registry loops. -/
structure Servers where
  harbor : HarborReq → Option HttpResp
  registry : Str → Option HttpResp
  newRequest : Str → Bool

/-- Lines 226-233; the requests issued are dropped. -/
def listRepositories (sv : Servers) (fuel : Nat) (urlBase pfx typ : Str) :
    Option (Except Err (List Str)) :=
  if typ = "harbor".toList then (listRepositoriesHarbor sv.harbor fuel pfx).2
  else if typ = "acr".toList then
    (listRepositoriesRegistry sv.newRequest sv.registry fuel urlBase pfx).2
  else some (.error (.unsupported typ))

/-- Work items of the existence checks of a run, in call order. -/
def checksOf (es : List Event) : List (Str × Str) :=
  es.filterMap fun e =>
    match e with
    | .check repoPath tag => some (repoPath, tag)
    | _ => none

/-- Work items of the copies of a run, in call order. -/
def copiesOf (es : List Event) : List (Str × Str) :=
  es.filterMap fun e =>
    match e with
    | .copy repoPath tag => some (repoPath, tag)
    | _ => none

/-- Work items of the `storeRecord` calls of a run, in call order. -/
def storesOf (es : List Event) : List (Str × Str) :=
  es.filterMap fun e =>
    match e with
    | .store repoPath tag => some (repoPath, tag)
    | _ => none

/-- The server answers the requests `mk 1`, ..., `mk k` with status 200 and a
    well-formed body holding the names `pg i`, and page `k` is the first empty
    page. -/
def ServesPages (server : HarborReq → Option HttpResp) (mk : Nat → HarborReq)
    (pg : Nat → List Str) (k : Nat) : Prop :=
  1 ≤ k ∧
  (∀ i, 1 ≤ i → i ≤ k →
    ∃ resp, server (mk i) = some resp ∧ resp.status = 200 ∧ resp.names = some (pg i)) ∧
  (∀ i, 1 ≤ i → i < k → pg i ≠ []) ∧
  pg k = []

/-! ## Lemmas on the string operations -/

theorem hasSuffix_iff (s p : Str) : hasSuffix s p = true ↔ p <:+ s := by
  simp [hasSuffix]

theorem hasPrefix_iff (s p : Str) : hasPrefix s p = true ↔ p <+: s := by
  simp [hasPrefix]

theorem trimSuffix_append (s p : Str) : trimSuffix (s ++ p) p = s := by
  have h : hasSuffix (s ++ p) p = true := (hasSuffix_iff _ _).2 (List.suffix_append s p)
  simp [trimSuffix, h]

theorem trimSuffix_of_not (s p : Str) (h : hasSuffix s p = false) : trimSuffix s p = s := by
  simp [trimSuffix, h]

theorem mem_of_mem_trimPrefix {c : Char} {s p : Str} (h : c ∈ trimPrefix s p) : c ∈ s := by
  unfold trimPrefix at h
  split at h
  · exact List.mem_of_mem_drop h
  · exact h

theorem lastIndexByte_eq_none {s : Str} {c : Char} (h : c ∉ s) : lastIndexByte s c = none := by
  induction s with
  | nil => rfl
  | cons x xs ih =>
    have hx : ¬ x = c := fun e => h (by simp [e])
    have hxs : c ∉ xs := fun m => h (List.mem_cons_of_mem _ m)
    simp [lastIndexByte, ih hxs, hx]

theorem lastIndexByte_append_cons (p t : Str) (c : Char) (h : c ∉ t) :
    lastIndexByte (p ++ c :: t) c = some p.length := by
  induction p with
  | nil => simp [lastIndexByte, lastIndexByte_eq_none h]
  | cons x xs ih => simp [lastIndexByte, ih]

theorem parsePath_no_colon {inputPath : Str} (h : ':' ∉ inputPath) :
    parsePath inputPath = (trimPrefix inputPath ['/'], []) := by
  have h2 : ':' ∉ trimPrefix inputPath ['/'] := fun m => h (mem_of_mem_trimPrefix m)
  simp [parsePath, lastIndexByte_eq_none h2]

theorem parsePath_colon {inputPath p t : Str} (h : trimPrefix inputPath ['/'] = p ++ ':' :: t)
    (ht : ':' ∉ t) : parsePath inputPath = (p, t) := by
  simp [parsePath, h, lastIndexByte_append_cons p t ':' ht]

theorem trimSuffix_listingPrefix (path : Str) :
    trimSuffix (listingPrefix path) ['/'] = trimSuffix path ['/'] := by
  unfold listingPrefix
  split
  · next h => rw [trimSuffix_append, trimSuffix_of_not _ _ h.2]
  · rfl

theorem resolve_eq (listing : Str → Except Err (List Str)) (inputPath path tag : Str)
    (L : List Str) (hp : parsePath inputPath = (path, tag))
    (hL : listing (listingPrefix path) = .ok L) :
    resolve listing inputPath =
      if L = [] ∧ path ≠ [] then
        .ok ⟨listingPrefix path, [trimSuffix path ['/']], true, tag⟩
      else .ok ⟨listingPrefix path, L, false, tag⟩ := by
  simp only [resolve, hp, hL, List.length_eq_zero, trimSuffix_listingPrefix]

/-! ## Path resolution: theorems -/

/-- C1, as stated, fails for a path that ends in `/`: for the input `library/`
    and an acr catalog holding `library/nginx`, the listing called with the
    path plus a trailing `/` (`library//`) is empty, so the claim expects the
    single repository `library`, marked specific, with AllTags; the program
    lists under `library/` (a path that ends in `/` gets no second slash) and
    resolves `library/nginx`, not specific, with LatestOnly. -/
theorem trailing_slash_path_listed_as_is :
    (match listRepositories
        ⟨fun _ => none, fun _ => some ⟨200, [], some ["library/nginx".toList], []⟩,
         fun _ => true⟩
        2 "https://acr.example.com".toList ("library/".toList ++ ['/']) "acr".toList with
      | some res => res
      | none => .error .request) = .ok [] ∧
    resolve (fun pfx =>
        match listRepositories
          ⟨fun _ => none, fun _ => some ⟨200, [], some ["library/nginx".toList], []⟩,
           fun _ => true⟩
          2 "https://acr.example.com".toList pfx "acr".toList with
        | some res => res
        | none => .error .request) "library/".toList =
      .ok ⟨"library/".toList, ["library/nginx".toList], false, []⟩ ∧
    tagSelector ⟨"library/".toList, ["library/nginx".toList], false, []⟩ = .LatestOnly ∧
    ["library/nginx".toList] ≠ [trimSuffix "library/".toList ['/']] := by
  decide

/-- C1, amended: for an input path without a colon that is non-empty once a
    leading `/` is stripped, and for every list `L` the source listing returns
    for the listing prefix the program builds (the path followed by `/` when
    the path does not end in `/`, the path itself when it does): if `L` is
    non-empty the resolved repositories are `L` and
    each repository takes its tag from `getLatestTag` (LatestOnly); if `L` is
    empty the resolved repositories are the path without its trailing slash
    alone, the resolution is specific and the tags come from `listTags`
    (AllTags). -/
theorem resolve_without_tag (listing : Str → Except Err (List Str))
    (listTags : Str → Except Err (List Str)) (getLatestTag : Str → Except Err Str)
    (inputPath : Str) (L : List Str)
    (hcolon : ':' ∉ inputPath) (hne : trimPrefix inputPath ['/'] ≠ [])
    (hL : listing (listingPrefix (trimPrefix inputPath ['/'])) = .ok L) :
    (hasSuffix (trimPrefix inputPath ['/']) ['/'] = false →
      listingPrefix (trimPrefix inputPath ['/']) = trimPrefix inputPath ['/'] ++ ['/']) ∧
    (hasSuffix (trimPrefix inputPath ['/']) ['/'] = true →
      listingPrefix (trimPrefix inputPath ['/']) = trimPrefix inputPath ['/']) ∧
    (L ≠ [] → ∃ r, resolve listing inputPath = .ok r ∧ r.repos = L ∧
      tagSelector r = .LatestOnly ∧
      ∀ repoPath, repoTags listTags getLatestTag r repoPath =
        (getLatestTag repoPath).map fun tag => [tag]) ∧
    (L = [] → ∃ r, resolve listing inputPath = .ok r ∧
      r.repos = [trimSuffix (trimPrefix inputPath ['/']) ['/']] ∧ r.isSpecific = true ∧
      tagSelector r = .AllTags ∧
      ∀ repoPath, repoTags listTags getLatestTag r repoPath = listTags repoPath) := by
  have hr := resolve_eq listing inputPath _ [] L (parsePath_no_colon hcolon) hL
  refine ⟨fun hs => by simp [listingPrefix, hne, hs], fun hs => by simp [listingPrefix, hs],
    fun hLne => ?_, fun hLe => ?_⟩
  · refine ⟨_, by rw [hr, if_neg (fun h => hLne h.1)], rfl, by simp [tagSelector], ?_⟩
    intro repoPath
    simp only [repoTags]
    cases getLatestTag repoPath <;> simp [Except.map]
  · refine ⟨_, by rw [hr, if_pos ⟨hLe, hne⟩], rfl, rfl, by simp [tagSelector], ?_⟩
    intro repoPath
    simp [repoTags]

/-- Witness of the amended C1: input `library`, empty listing. -/
theorem resolve_without_tag_witness :
    ∃ r, resolve (fun _ => .ok []) "library".toList = .ok r ∧
      r.repos = ["library".toList] ∧ r.isSpecific = true ∧ tagSelector r = .AllTags ∧
      ∀ repoPath, repoTags (fun _ => .ok []) (fun _ => .error .request) r repoPath = .ok [] :=
  (resolve_without_tag (fun _ => .ok []) (fun _ => .ok []) (fun _ => .error .request)
    "library".toList [] (by decide) (by decide) rfl).2.2.2 rfl

/-- C2, as stated, fails: for the input `library/nginx:1.27` and a source
    listing that returns `library/nginx/debug` for the prefix `library/nginx/`,
    the resolved repositories are the listing, not `library/nginx`, and the
    only work item is `(library/nginx/debug, 1.27)`. -/
theorem explicit_tag_follows_listing :
    (resolve (fun pfx => if pfx = "library/nginx/".toList
        then .ok ["library/nginx/debug".toList] else .ok [])
      "library/nginx:1.27".toList).map (fun r =>
        (r.repos, tagSelector r, workItems (fun _ => .ok []) (fun _ => .error .request) r)) =
      .ok (["library/nginx/debug".toList], .Explicit "1.27".toList,
        [("library/nginx/debug".toList, "1.27".toList)]) ∧
    ["library/nginx/debug".toList] ≠ ["library/nginx".toList] := by
  decide

/-- C2, amended: for an input `p:t` (after one leading `/` is stripped), `p`
    and `t` without colon and `t` non-empty, and for every list `L` the source
    listing returns for the prefix of `p`: the selector is `Explicit t`, every
    resolved repository gets the single tag `t` without any tag listing, and
    the work items are the resolved repositories paired with `t`.  The
    resolved repositories are `p` without its trailing slash when `L` is empty
    and `p` is not, and they are `L` otherwise; so the only work item is
    `(p, t)` exactly when the listing is empty and `p` is a non-empty path
    without trailing slash. -/
theorem resolve_explicit_tag (listing : Str → Except Err (List Str))
    (listTags : Str → Except Err (List Str)) (getLatestTag : Str → Except Err Str)
    (inputPath p t : Str) (L : List Str)
    (hin : trimPrefix inputPath ['/'] = p ++ ':' :: t) (ht : ':' ∉ t) (hne : t ≠ [])
    (hL : listing (listingPrefix p) = .ok L) :
    ∃ r, resolve listing inputPath = .ok r ∧ tagSelector r = .Explicit t ∧
      (∀ repoPath, repoTags listTags getLatestTag r repoPath = .ok [t]) ∧
      workItems listTags getLatestTag r = r.repos.map (fun repoPath => (repoPath, t)) ∧
      (L = [] → p ≠ [] → r.repos = [trimSuffix p ['/']]) ∧
      (L ≠ [] ∨ p = [] → r.repos = L) ∧
      (L = [] → p ≠ [] → hasSuffix p ['/'] = false →
        workItems listTags getLatestTag r = [(p, t)]) := by
  have hr := resolve_eq listing inputPath p t L (parsePath_colon hin ht) hL
  have key : ∀ r : Resolution, r.specificTag = t →
      tagSelector r = .Explicit t ∧
      (∀ repoPath, repoTags listTags getLatestTag r repoPath = .ok [t]) ∧
      workItems listTags getLatestTag r = r.repos.map (fun repoPath => (repoPath, t)) := by
    intro r hrt
    have h1 : ∀ repoPath, repoTags listTags getLatestTag r repoPath = .ok [t] := by
      intro repoPath
      simp [repoTags, hrt, hne]
    refine ⟨by simp [tagSelector, hrt, hne], h1, ?_⟩
    simp only [workItems, h1, List.map_cons, List.map_nil]
    induction r.repos with
    | nil => rfl
    | cons x xs ih => simp [List.flatMap_cons, ih]
  by_cases hc : L = [] ∧ p ≠ []
  · rw [if_pos hc] at hr
    obtain ⟨k1, k2, k3⟩ := key ⟨listingPrefix p, [trimSuffix p ['/']], true, t⟩ rfl
    refine ⟨_, hr, k1, k2, k3, fun _ _ => rfl, fun h => ?_, fun _ _ hs => ?_⟩
    · rcases h with h | h
      · exact absurd hc.1 h
      · exact absurd h hc.2
    · rw [k3]
      simp [trimSuffix_of_not _ _ hs]
  · rw [if_neg hc] at hr
    obtain ⟨k1, k2, k3⟩ := key ⟨listingPrefix p, L, false, t⟩ rfl
    exact ⟨_, hr, k1, k2, k3, fun h1 h2 => absurd ⟨h1, h2⟩ hc, fun _ => rfl,
      fun h1 h2 _ => absurd ⟨h1, h2⟩ hc⟩

/-- Witness of the amended C2: input `/library/nginx:1.27`, empty listing. -/
theorem resolve_explicit_tag_witness :
    ∃ r, resolve (fun _ => .ok []) "/library/nginx:1.27".toList = .ok r ∧
      tagSelector r = .Explicit "1.27".toList ∧
      workItems (fun _ => .ok []) (fun _ => .error .request) r =
        [("library/nginx".toList, "1.27".toList)] := by
  obtain ⟨r, h1, h2, _, _, _, _, h7⟩ :=
    resolve_explicit_tag (fun _ => .ok []) (fun _ => .ok []) (fun _ => .error .request)
      "/library/nginx:1.27".toList "library/nginx".toList "1.27".toList []
      (by decide) (by decide) (by decide) rfl
  exact ⟨r, h1, h2, h7 rfl (by decide) (by decide)⟩

/-- C8, as stated, fails: without a path argument the prefix passed to the
    source listing is `library/`, not the empty string. -/
theorem absent_argument_lists_library :
    listingPrefix (parsePath (inputPathOf ["imagesync".toList])).1 = "library/".toList ∧
    listingPrefix (parsePath (inputPathOf ["imagesync".toList, []])).1 = "library/".toList ∧
    listingPrefix (parsePath (inputPathOf ["imagesync".toList, "/".toList])).1 = [] ∧
    "library/".toList ≠ ([] : Str) := by
  decide

/-- C8, amended: when the path argument is absent or is the empty string the
    input path defaults to `/library`, the run is the run for `/library`, and
    the prefix passed to the source listing is `library/`; the empty prefix
    (the whole registry) is passed for the input `/`. -/
theorem absent_argument_defaults (args : List Str)
    (h : args.length ≤ 1 ∨ args.getD 1 [] = []) :
    inputPathOf args = "/library".toList ∧
    listingPrefix (parsePath (inputPathOf args)).1 = "library/".toList ∧
    (∀ listing, resolve listing (inputPathOf args) = resolve listing "/library".toList) ∧
    (∀ prog, listingPrefix (parsePath (inputPathOf [prog, "/".toList])).1 = []) := by
  have h0 : (if args.length > 1 then args.getD 1 [] else ([] : Str)) = [] := by
    rcases h with h | h
    · exact if_neg (by omega)
    · split
      · exact h
      · rfl
  have h1 : inputPathOf args = "/library".toList := by
    simp only [inputPathOf, h0]
    rfl
  exact ⟨h1, by rw [h1]; decide, fun listing => by rw [h1], fun prog => rfl⟩

/-- Witness of the amended C8: the program name alone. -/
theorem absent_argument_defaults_witness :
    inputPathOf ["imagesync".toList] = "/library".toList ∧
    listingPrefix (parsePath (inputPathOf ["imagesync".toList])).1 = "library/".toList :=
  ⟨(absent_argument_defaults ["imagesync".toList] (Or.inl (by decide))).1,
   (absent_argument_defaults ["imagesync".toList] (Or.inl (by decide))).2.1⟩

/-! ## Sync loop and existence check: theorems -/

theorem syncItem_calls (repoPath tag : Str) (o : ItemOutcome) :
    checksOf (syncItem repoPath tag o) = [(repoPath, tag)] ∧
    copiesOf (syncItem repoPath tag o) =
      (if imageExistsInDst o.dst = .ok false then [(repoPath, tag)] else []) ∧
    storesOf (syncItem repoPath tag o) =
      (if imageExistsInDst o.dst = .ok true ∨
          (imageExistsInDst o.dst = .ok false ∧ o.copy = .ok ())
        then [(repoPath, tag)] else []) := by
  unfold syncItem
  cases hc : imageExistsInDst o.dst with
  | error e => simp [checksOf, copiesOf, storesOf]
  | ok found =>
    cases found with
    | true => simp [checksOf, copiesOf, storesOf]
    | false =>
      cases hs : o.copy with
      | error e => simp [checksOf, copiesOf, storesOf]
      | ok u => simp [checksOf, copiesOf, storesOf]

/-- C4: for every sequence of work items and every result of the existence
    check, the copy and the store of each item, the sync loop checks every
    item exactly once, in order; it calls the copy exactly for the items whose
    check succeeded with `false`; and it calls `storeRecord` exactly for the
    items whose check succeeded and that already existed or were copied
    without error, so an item whose check or copy failed gets no record. -/
theorem syncLoop_calls (ws : List ((Str × Str) × ItemOutcome)) :
    checksOf (syncLoop ws) = ws.map (fun w => w.1) ∧
    copiesOf (syncLoop ws) =
      (ws.filter fun w => imageExistsInDst w.2.dst = .ok false).map (fun w => w.1) ∧
    storesOf (syncLoop ws) =
      (ws.filter fun w => imageExistsInDst w.2.dst = .ok true ∨
        (imageExistsInDst w.2.dst = .ok false ∧ w.2.copy = .ok ())).map (fun w => w.1) := by
  induction ws with
  | nil => exact ⟨rfl, rfl, rfl⟩
  | cons w rest ih =>
    obtain ⟨⟨repoPath, tag⟩, o⟩ := w
    obtain ⟨h1, h2, h3⟩ := syncItem_calls repoPath tag o
    obtain ⟨i1, i2, i3⟩ := ih
    simp only [checksOf, copiesOf, storesOf] at h1 h2 h3 i1 i2 i3 ⊢
    simp only [syncLoop, List.filterMap_append, h1, h2, h3, i1, i2, i3, List.map_cons,
      List.filter_cons]
    refine ⟨rfl, ?_, ?_⟩
    · by_cases hc : imageExistsInDst o.dst = .ok false <;> simp [hc]
    · by_cases hc : imageExistsInDst o.dst = .ok true ∨
        (imageExistsInDst o.dst = .ok false ∧ o.copy = .ok ()) <;> simp [hc]

/-- C5: for every status code of the destination's manifest response,
    `imageExistsInDst` gives `true` without error iff the status is 200,
    `false` without error iff the status is 404, and for every other status
    an error carrying the status and the body. -/
theorem imageExistsInDst_status (resp : HttpResp) :
    (imageExistsInDst (some resp) = .ok true ↔ resp.status = 200) ∧
    (imageExistsInDst (some resp) = .ok false ↔ resp.status = 404) ∧
    ((resp.status ≠ 200 ∧ resp.status ≠ 404) ↔
      imageExistsInDst (some resp) = .error (.api resp.status resp.body)) := by
  unfold imageExistsInDst
  by_cases h200 : resp.status = 200
  · simp [h200]
  · by_cases h404 : resp.status = 404
    · simp [h404]
    · simp [h200, h404]

/-! ## Harbor pagination: theorems -/

theorem harborPages_run (server : HarborReq → Option HttpResp) (mk : Nat → HarborReq)
    (pg : Nat → List Str) :
    ∀ (n p fuel : Nat) (names : List Str), n + 1 ≤ fuel →
      (∀ i, p ≤ i → i ≤ p + n →
        ∃ resp, server (mk i) = some resp ∧ resp.status = 200 ∧ resp.names = some (pg i)) →
      (∀ i, p ≤ i → i < p + n → pg i ≠ []) →
      pg (p + n) = [] →
      harborPages server mk fuel p names =
        ((List.range' p (n + 1)).map mk,
          some (.ok (names ++ (List.range' p n).flatMap pg))) := by
  intro n
  induction n with
  | zero =>
    intro p fuel names hf hresp _ hlast
    obtain ⟨f, rfl⟩ : ∃ f, fuel = f + 1 := ⟨fuel - 1, by omega⟩
    obtain ⟨resp, h1, h2, h3⟩ := hresp p (le_refl _) (by omega)
    have hlast2 : pg p = [] := by simpa using hlast
    simp [harborPages, h1, h2, h3, hlast2]
  | succ n ih =>
    intro p fuel names hf hresp hne hlast
    obtain ⟨f, rfl⟩ : ∃ f, fuel = f + 1 := ⟨fuel - 1, by omega⟩
    obtain ⟨resp, h1, h2, h3⟩ := hresp p (le_refl _) (by omega)
    have hp : pg p ≠ [] := hne p (le_refl _) (by omega)
    have hrec := ih (p + 1) f (names ++ pg p) (by omega)
      (fun i hi1 hi2 => hresp i (by omega) (by omega))
      (fun i hi1 hi2 => hne i (by omega) (by omega))
      (by rw [← hlast]; congr 1; omega)
    simp only [harborPages, h1, h2, h3, ne_eq, not_true_eq_false, if_false,
      List.length_eq_zero, hp, hrec]
    simp [List.range'_succ, List.flatMap_cons, List.append_assoc]

theorem harborPages_of_serves {server : HarborReq → Option HttpResp} {mk : Nat → HarborReq}
    {pg : Nat → List Str} {k fuel : Nat} (h : ServesPages server mk pg k) (hf : k ≤ fuel) :
    harborPages server mk fuel 1 [] =
      ((List.range' 1 k).map mk, some (.ok ((List.range' 1 (k - 1)).flatMap pg))) := by
  obtain ⟨hk, hresp, hne, hlast⟩ := h
  obtain ⟨n, rfl⟩ : ∃ n, k = n + 1 := ⟨k - 1, by omega⟩
  have := harborPages_run server mk pg n 1 fuel [] hf
    (fun i hi1 hi2 => hresp i hi1 (by omega))
    (fun i hi1 hi2 => hne i hi1 (by omega))
    (by rw [← hlast]; congr 1; omega)
  simpa using this

/-- C6: when the server answers pages `1..k` successfully and well-formed and
    page `k` is the first empty page, `listProjectsHarbor` and
    `listReposInProjectHarbor` (given fuel for `k` rounds) request exactly the
    pages `1, ..., k` in this order and return the names of the pages
    `1..k-1` concatenated in page order.  In particular a first page of 100
    names is followed by a request for page 2, and an empty first page ends
    the listing with an empty result after the one request. -/
theorem harbor_page_pagination (server : HarborReq → Option HttpResp) (project : Str)
    (pg : Nat → List Str) (k fuel : Nat) (hf : k ≤ fuel) :
    (ServesPages server .projects pg k →
      listProjectsHarbor server fuel =
        ((List.range' 1 k).map .projects,
          some (.ok ((List.range' 1 (k - 1)).flatMap pg))) ∧
      ((pg 1).length = 100 → (listProjectsHarbor server fuel).1.take 2 =
        [.projects 1, .projects 2]) ∧
      ((pg 1).length = 0 → listProjectsHarbor server fuel =
        ([.projects 1], some (.ok [])))) ∧
    (ServesPages server (.repositories project) pg k →
      listReposInProjectHarbor server fuel project =
        ((List.range' 1 k).map (.repositories project),
          some (.ok ((List.range' 1 (k - 1)).flatMap pg))) ∧
      ((pg 1).length = 100 → (listReposInProjectHarbor server fuel project).1.take 2 =
        [.repositories project 1, .repositories project 2]) ∧
      ((pg 1).length = 0 → listReposInProjectHarbor server fuel project =
        ([.repositories project 1], some (.ok [])))) := by
  have main : ∀ mk : Nat → HarborReq, ServesPages server mk pg k →
      harborPages server mk fuel 1 [] =
        ((List.range' 1 k).map mk, some (.ok ((List.range' 1 (k - 1)).flatMap pg))) ∧
      ((pg 1).length = 100 → (harborPages server mk fuel 1 []).1.take 2 = [mk 1, mk 2]) ∧
      ((pg 1).length = 0 → harborPages server mk fuel 1 [] = ([mk 1], some (.ok []))) := by
    intro mk h
    have hrun := harborPages_of_serves h hf
    obtain ⟨hk, _, hne, hlast⟩ := h
    refine ⟨hrun, fun h100 => ?_, fun h0 => ?_⟩
    · have hk2 : 2 ≤ k := by
        by_contra hlt
        have : k = 1 := by omega
        rw [this] at hlast
        rw [hlast] at h100
        simp at h100
      obtain ⟨m, rfl⟩ : ∃ m, k = m + 2 := ⟨k - 2, by omega⟩
      rw [hrun]
      simp [List.range'_succ]
    · have hk1 : k = 1 := by
        by_contra hk1
        exact hne 1 (le_refl _) (by omega) (List.length_eq_zero.1 h0)
      rw [hrun, hk1]
      rfl
  exact ⟨main .projects, main (.repositories project)⟩

/-- Witness of C6: a project list of one page `["library"]` followed by an
    empty page. -/
theorem harbor_page_pagination_witness :
    listProjectsHarbor (fun req =>
        match req with
        | .projects 1 => some ⟨200, [], some ["library".toList], []⟩
        | _ => some ⟨200, [], some [], []⟩) 5 =
      ([.projects 1, .projects 2], some (.ok ["library".toList])) :=
  ((harbor_page_pagination _ [] (fun i => if i = 1 then ["library".toList] else []) 2 5
    (by decide)).1
    ⟨by decide,
     fun i h1 h2 => by
      interval_cases i
      · exact ⟨_, rfl, rfl, rfl⟩
      · exact ⟨_, rfl, rfl, rfl⟩,
     fun i h1 h2 => by
      interval_cases i
      decide,
     rfl⟩).1

/-! ## Prefix filters: theorems -/

theorem split_ne_nil (s : Str) : split s ≠ [] := by
  cases s with
  | nil => simp [split]
  | cons c cs =>
    unfold split
    split
    · simp
    · split <;> simp

theorem split_headD (s : Str) : (split s).headD [] = s.takeWhile (fun c => c ≠ '/') := by
  induction s with
  | nil => rfl
  | cons c cs ih =>
    unfold split
    by_cases hc : c = '/'
    · simp [hc]
    · cases hs : split cs with
      | nil => exact absurd hs (split_ne_nil cs)
      | cons q qs =>
        rw [hs] at ih
        simp only [List.headD_cons] at ih
        simp [hc, ih]

theorem split_length (s : Str) : 1 < (split s).length ↔ '/' ∈ s := by
  induction s with
  | nil => simp [split]
  | cons c cs ih =>
    unfold split
    by_cases hc : c = '/'
    · have := split_ne_nil cs
      have hpos : 0 < (split cs).length := List.length_pos.2 this
      simp [hc, hpos]
    · cases hs : split cs with
      | nil => exact absurd hs (split_ne_nil cs)
      | cons q qs =>
        rw [hs] at ih
        have hc2 : ¬ '/' = c := fun e => hc e.symm
        simpa [hc, hc2] using ih

theorem join_split (s : Str) : join (split s) = s := by
  induction s with
  | nil => rfl
  | cons c cs ih =>
    unfold split
    by_cases hc : c = '/'
    · cases hs : split cs with
      | nil => exact absurd hs (split_ne_nil cs)
      | cons q qs =>
        rw [hs] at ih
        simp only [hc, if_true]
        rw [← ih]
        simp [join, List.intercalate, List.intersperse]
    · cases hs : split cs with
      | nil => exact absurd hs (split_ne_nil cs)
      | cons q qs =>
        rw [hs] at ih
        simp only [hc, if_false]
        rw [← ih]
        cases qs <;> simp [join, List.intercalate, List.intersperse]

theorem harborPages_requests (server : HarborReq → Option HttpResp) (mk : Nat → HarborReq) :
    ∀ (fuel page : Nat) (names : List Str),
      ∀ req ∈ (harborPages server mk fuel page names).1, ∃ i, req = mk i := by
  intro fuel
  induction fuel with
  | zero => intro page names req h; simp [harborPages] at h
  | succ f ih =>
    intro page names req h
    unfold harborPages at h
    split at h
    · exact ⟨page, by simpa using h⟩
    · split at h
      · exact ⟨page, by simpa using h⟩
      · split at h
        · exact ⟨page, by simpa using h⟩
        · split at h
          · exact ⟨page, by simpa using h⟩
          · rcases List.mem_cons.1 h with h | h
            · exact ⟨page, h⟩
            · exact ih _ _ req h

theorem listRepositoriesHarbor_eq (server : HarborReq → Option HttpResp) (fuel : Nat)
    (pfx : Str) (hne : pfx ≠ []) :
    listRepositoriesHarbor server fuel pfx =
      ((listReposInProjectHarbor server fuel
          ((trimSuffix pfx ['/']).takeWhile (fun c => c ≠ '/'))).1,
        (listReposInProjectHarbor server fuel
          ((trimSuffix pfx ['/']).takeWhile (fun c => c ≠ '/'))).2.map
          (Except.map (List.filter fun r =>
            decide ('/' ∉ trimSuffix pfx ['/']) ||
              hasPrefix r (trimSuffix pfx ['/'] ++ ['/'])))) := by
  unfold listRepositoriesHarbor
  rw [if_neg hne]
  simp only [split_headD]
  have hsub : ∀ r : Str,
      (decide ((if (split (trimSuffix pfx ['/'])).length > 1
          then join ((split (trimSuffix pfx ['/'])).drop 1) ++ ['/'] else ([] : Str)) = []) ||
        hasPrefix r (trimSuffix pfx ['/'] ++ ['/'])) =
      (decide ('/' ∉ trimSuffix pfx ['/']) ||
        hasPrefix r (trimSuffix pfx ['/'] ++ ['/'])) := by
    intro r
    by_cases hm : '/' ∈ trimSuffix pfx ['/']
    · have hl := (split_length _).2 hm
      simp [hl, hm]
    · have hl : ¬ 1 < (split (trimSuffix pfx ['/'])).length := fun h => hm ((split_length _).1 h)
      simp [hl, hm]
  simp only [hsub]
  rcases hres : listReposInProjectHarbor server fuel
      ((trimSuffix pfx ['/']).takeWhile (fun c => c ≠ '/')) with ⟨t, _ | e | projRepos⟩ <;> rfl

theorem split_first (s : Str) (h : '/' ∈ s) :
    s.takeWhile (fun c => c ≠ '/') ++ '/' :: join ((split s).drop 1) = s := by
  have hl := (split_length s).2 h
  have hj := join_split s
  have hh := split_headD s
  cases hs : split s with
  | nil => exact absurd hs (split_ne_nil s)
  | cons q qs =>
    rw [hs] at hl hj hh
    cases qs with
    | nil => simp at hl
    | cons q2 qs2 =>
      simp only [List.headD_cons] at hh
      rw [← hh]
      conv_rhs => rw [← hj]
      simp [join, List.intercalate, List.intersperse]

theorem registryPages_keep (newRequest : Str → Bool) (server : Str → Option HttpResp)
    (host : Str) (keep : Str → Bool) :
    ∀ (fuel : Nat) (url : Str) (names repos : List Str),
      (registryPages newRequest server host keep fuel url names).2 = some (.ok repos) →
      ∃ extra, repos = names ++ extra ∧ ∀ r ∈ extra, keep r = true := by
  intro fuel
  induction fuel with
  | zero =>
    intro url names repos h
    unfold registryPages at h
    split at h
    · exact ⟨[], by simpa using h.symm, by simp⟩
    · simp at h
  | succ f ih =>
    intro url names repos h
    unfold registryPages at h
    split at h
    · exact ⟨[], by simpa using h.symm, by simp⟩
    · simp only at h
      split at h
      · simp at h
      · split at h
        · simp at h
        · split at h
          · simp at h
          · split at h
            · simp at h
            · split at h
              · simp at h
              · obtain ⟨extra, he, hk⟩ := ih _ _ _ h
                rw [List.append_assoc] at he
                refine ⟨_, he, ?_⟩
                intro r hr
                rcases List.mem_append.1 hr with hr | hr
                · exact (List.mem_filter.1 hr).2
                · exact hk r hr

/-- C9, as stated, fails: for the prefix `library/ng` the repository
    `library/nginx`, whose name starts with the string `library/ng`, is not
    kept; only names starting with `library/ng/` are. -/
theorem harbor_filter_ends_at_separator :
    (listRepositoriesHarbor (fun req =>
        match req with
        | .repositories _ 1 =>
          some ⟨200, [], some ["library/nginx".toList, "library/ng/tool".toList], []⟩
        | _ => some ⟨200, [], some [], []⟩) 3 "library/ng".toList).2 =
      some (.ok ["library/ng/tool".toList]) ∧
    hasPrefix "library/nginx".toList "library/ng".toList = true := by
  decide

/-- C9, amended: for every non-empty prefix, with `p` the prefix without its
    trailing slash and `project` the part of `p` before its first `/`,
    `listRepositoriesHarbor` issues exactly the requests of the repository
    listing of `project`, passes its failure on, and keeps, in listing order,
    exactly the names that start with `p` followed by `/` (the string
    `project/subPrefix` of the code, whose `subPrefix` ends in `/`), so a
    match ends at a path separator; when `p` has no `/` (empty `subPrefix`)
    every repository returned for the project is kept. -/
theorem harbor_prefix_filter (server : HarborReq → Option HttpResp) (fuel : Nat) (pfx : Str)
    (hne : pfx ≠ []) :
    (listRepositoriesHarbor server fuel pfx).1 =
      (listReposInProjectHarbor server fuel
        ((trimSuffix pfx ['/']).takeWhile (fun c => c ≠ '/'))).1 ∧
    (∀ req ∈ (listRepositoriesHarbor server fuel pfx).1,
      ∃ page, req = .repositories ((trimSuffix pfx ['/']).takeWhile (fun c => c ≠ '/')) page) ∧
    ('/' ∈ trimSuffix pfx ['/'] →
      (trimSuffix pfx ['/']).takeWhile (fun c => c ≠ '/') ++ '/' ::
          (join ((split (trimSuffix pfx ['/'])).drop 1) ++ ['/']) =
        trimSuffix pfx ['/'] ++ ['/'] ∧
      (listRepositoriesHarbor server fuel pfx).2 =
        (listReposInProjectHarbor server fuel
          ((trimSuffix pfx ['/']).takeWhile (fun c => c ≠ '/'))).2.map
          (Except.map (List.filter fun r => hasPrefix r (trimSuffix pfx ['/'] ++ ['/'])))) ∧
    ('/' ∉ trimSuffix pfx ['/'] →
      listRepositoriesHarbor server fuel pfx =
        listReposInProjectHarbor server fuel (trimSuffix pfx ['/'])) := by
  have heq := listRepositoriesHarbor_eq server fuel pfx hne
  refine ⟨by rw [heq], ?_, fun hm => ⟨?_, ?_⟩, fun hm => ?_⟩
  · intro req hreq
    rw [heq] at hreq
    exact harborPages_requests server _ fuel 1 [] req hreq
  · have := split_first _ hm
    conv_rhs => rw [← this]
    simp
  · rw [heq]
    simp [hm]
  · have htw : (trimSuffix pfx ['/']).takeWhile (fun c => c ≠ '/') = trimSuffix pfx ['/'] := by
      rw [List.takeWhile_eq_self_iff]
      intro c hc
      have : c ≠ '/' := fun e => hm (e ▸ hc)
      simpa using this
    rw [heq, htw]
    simp only [hm, not_false_eq_true, decide_True, Bool.true_or, List.filter_true]
    rcases listReposInProjectHarbor server fuel (trimSuffix pfx ['/']) with ⟨t, _ | e | l⟩ <;>
      simp [Except.map]

/-- Witness of the amended C9: for the prefix `library/ng/` the requests are
    those of the repository listing of project `library`. -/
theorem harbor_prefix_filter_witness :
    (listRepositoriesHarbor (fun _ => some ⟨200, [], some [], []⟩) 3
        "library/ng/".toList).1 =
      (listReposInProjectHarbor (fun _ => some ⟨200, [], some [], []⟩) 3
        "library".toList).1 :=
  (harbor_prefix_filter (fun _ => some ⟨200, [], some [], []⟩) 3 "library/ng/".toList
    (by decide)).1

/-- C3, as stated, fails for the harbor backend and a bare project name: for
    the prefix `library/` the names the project listing returns are kept
    unfiltered, so a response naming `other/app` puts a name that does not
    start with `library/` into the result. -/
theorem harbor_project_listing_unfiltered :
    listRepositories
      ⟨fun req =>
        match req with
        | .repositories _ 1 => some ⟨200, [], some ["other/app".toList], []⟩
        | _ => some ⟨200, [], some [], []⟩,
       fun _ => none, fun _ => true⟩
      3 "https://harbor.example.com".toList "library/".toList "harbor".toList =
      some (.ok ["other/app".toList]) ∧
    hasPrefix "other/app".toList "library/".toList = false := by
  decide

/-- C3, amended: for every prefix that is non-empty without its trailing
    slash (`p`) and every list `listRepositories` returns: for the acr
    backend, and for the harbor backend when `p` contains a `/`, every
    returned name starts with `p` followed by `/`; for the harbor backend
    when `p` has no `/` (a bare project name) the returned list is the list
    the repository listing of project `p` returned, unfiltered. -/
theorem listRepositories_prefix_sound (sv : Servers) (fuel : Nat) (urlBase pfx typ : Str)
    (repos : List Str) (hne : trimSuffix pfx ['/'] ≠ [])
    (hres : listRepositories sv fuel urlBase pfx typ = some (.ok repos)) :
    (typ = "acr".toList →
      ∀ r ∈ repos, hasPrefix r (trimSuffix pfx ['/'] ++ ['/']) = true) ∧
    (typ = "harbor".toList → '/' ∈ trimSuffix pfx ['/'] →
      ∀ r ∈ repos, hasPrefix r (trimSuffix pfx ['/'] ++ ['/']) = true) ∧
    (typ = "harbor".toList → '/' ∉ trimSuffix pfx ['/'] →
      (listReposInProjectHarbor sv.harbor fuel (trimSuffix pfx ['/'])).2 =
        some (.ok repos)) := by
  have hpfx : pfx ≠ [] := by
    intro h
    apply hne
    rw [h]
    rfl
  refine ⟨fun ht => ?_, fun ht hm => ?_, fun ht hm => ?_⟩
  · have hty : ¬ typ = "harbor".toList := by rw [ht]; decide
    simp only [listRepositories, hty, if_false, ht, if_true, listRepositoriesRegistry,
      hne, ne_eq, not_false_eq_true] at hres
    obtain ⟨extra, he, hk⟩ := registryPages_keep _ _ _ _ _ _ _ _ hres
    intro r hr
    rw [he, List.nil_append] at hr
    simpa using hk r hr
  · simp only [listRepositories, ht, if_true] at hres
    rw [listRepositoriesHarbor_eq _ _ _ hpfx] at hres
    simp only [hm, not_true_eq_false, decide_False, Bool.false_or] at hres
    rcases hl : (listReposInProjectHarbor sv.harbor fuel
      ((trimSuffix pfx ['/']).takeWhile (fun c => c ≠ '/'))).2 with _ | e | projRepos
    · rw [hl] at hres
      simp at hres
    · rw [hl] at hres
      simp [Except.map] at hres
    · rw [hl] at hres
      simp only [Option.map_some', Except.map, Option.some.injEq, Except.ok.injEq] at hres
      intro r hr
      rw [← hres] at hr
      exact (List.mem_filter.1 hr).2
  · simp only [listRepositories, ht, if_true] at hres
    have htw : (trimSuffix pfx ['/']).takeWhile (fun c => c ≠ '/') = trimSuffix pfx ['/'] := by
      rw [List.takeWhile_eq_self_iff]
      intro c hc
      have : c ≠ '/' := fun e => hm (e ▸ hc)
      simpa using this
    rw [listRepositoriesHarbor_eq _ _ _ hpfx, htw] at hres
    simp only [hm, not_false_eq_true, decide_True, Bool.true_or, List.filter_true] at hres
    rcases hl : (listReposInProjectHarbor sv.harbor fuel (trimSuffix pfx ['/'])).2
      with _ | e | projRepos
    · rw [hl] at hres
      simp at hres
    · rw [hl] at hres
      simp [Except.map] at hres
    · rw [hl] at hres
      simpa [Except.map] using hres

/-- Witness of the amended C3: an acr catalog holding `library/nginx` and
    `other/app`, listed under the prefix `library/`. -/
theorem listRepositories_prefix_sound_witness :
    listRepositories
        ⟨fun _ => none,
         fun _ => some ⟨200, [], some ["library/nginx".toList, "other/app".toList], []⟩,
         fun _ => true⟩
        2 "https://acr.example.com".toList "library/".toList "acr".toList =
      some (.ok ["library/nginx".toList]) ∧
    hasPrefix "library/nginx".toList "library/".toList = true :=
  ⟨by decide,
   (listRepositories_prefix_sound
    ⟨fun _ => none,
     fun _ => some ⟨200, [], some ["library/nginx".toList, "other/app".toList], []⟩,
     fun _ => true⟩
    2 "https://acr.example.com".toList "library/".toList "acr".toList
    ["library/nginx".toList] (by decide) (by decide)).1 rfl "library/nginx".toList
    (by decide)⟩

/-! ## Link pagination: theorems -/

theorem indexByte_lt {s : Str} {c : Char} {i : Nat} (h : indexByte s c = some i) :
    i < s.length := by
  induction s generalizing i with
  | nil => simp [indexByte] at h
  | cons x xs ih =>
    unfold indexByte at h
    split at h
    · have : i = 0 := by simpa using h.symm
      simp [this]
    · cases hx : indexByte xs c with
      | none => simp [hx] at h
      | some j =>
        have := ih hx
        simp [hx] at h
        simp only [List.length_cons]
        omega

theorem contains_nil_false {sub : Str} (h : contains [] sub = true) : sub = [] := by
  simpa [contains] using h

theorem nextURL_of_brackets (host link : Str) (start stop : Nat)
    (hrel : contains link "rel=\"next\"".toList = true)
    (h1 : indexByte link '<' = some start) (h2 : indexByte link '>' = some stop)
    (hlt : start < stop) :
    nextURL host link =
      .ok ("https://".toList ++ host ++ (link.take stop).drop (start + 1)) := by
  have hne : link ≠ [] := by
    intro h
    rw [h] at hrel
    exact absurd (contains_nil_false hrel) (by decide)
  have hlen := indexByte_lt h2
  have hsl : slice link (start + 1) stop = some ((link.take stop).drop (start + 1)) := by
    unfold slice
    rw [if_pos ⟨by omega, by omega⟩]
  simp only [nextURL, hne, hrel, ne_eq, not_false_eq_true, and_self, if_true, h1, h2, hsl]

theorem nextURL_stop (host link : Str)
    (h : link = [] ∨ contains link "rel=\"next\"".toList = false ∨
      indexByte link '<' = none ∨ indexByte link '>' = none) :
    nextURL host link = .ok [] := by
  unfold nextURL
  split
  · next hc =>
    rcases h with h | h | h | h
    · exact absurd h hc.1
    · rw [hc.2] at h
      exact absurd h (by decide)
    · rw [h]
    · rw [h]
      cases indexByte link '<' <;> rfl
  · rfl

theorem registryPages_step (newRequest : Str → Bool) (server : Str → Option HttpResp)
    (host : Str) (keep : Str → Bool)
    (fuel : Nat) (url : Str) (names : List Str) (resp : HttpResp) (pageList : List Str)
    (next : Str) (hurl : url ≠ []) (hreq : newRequest url = true)
    (hs : server url = some resp) (h200 : resp.status = 200)
    (hn : resp.names = some pageList) (hnext : nextURL host resp.link = .ok next) :
    registryPages newRequest server host keep (fuel + 1) url names =
      (url :: (registryPages newRequest server host keep fuel next
          (names ++ pageList.filter keep)).1,
        (registryPages newRequest server host keep fuel next
          (names ++ pageList.filter keep)).2) := by
  rw [registryPages]
  simp only [hurl, if_false, hreq, Bool.true_eq_false, hs, h200, ne_eq, not_true_eq_false,
    hn, hnext]

theorem registryPages_first (newRequest : Str → Bool) (server : Str → Option HttpResp)
    (host : Str) (keep : Str → Bool)
    (fuel : Nat) (url : Str) (names : List Str) (hurl : url ≠ [])
    (hreq : newRequest url = true) :
    (registryPages newRequest server host keep (fuel + 1) url names).1.take 1 = [url] := by
  rw [registryPages]
  simp only [hurl, if_false, hreq, Bool.true_eq_false]
  split
  · rfl
  · split
    · rfl
    · split
      · rfl
      · split <;> simp

theorem registryPages_rejected (newRequest : Str → Bool) (server : Str → Option HttpResp)
    (host : Str) (keep : Str → Bool)
    (fuel : Nat) (url : Str) (names : List Str) (hurl : url ≠ [])
    (hreq : newRequest url = false) :
    registryPages newRequest server host keep (fuel + 1) url names =
      ([], some (.error .badURL)) := by
  rw [registryPages]
  simp only [hurl, if_false, hreq, if_true]

/-- One round of the loops of `listRepositoriesRegistry` and `listTags` after
    a successful response to the request `url`: when the `Link` header is
    empty, has no `rel="next"`, or has no `<` or no `>`, no further request is
    issued and the names collected so far are returned; when it contains
    `rel="next"` and its first `<` stands before its first `>`, the next URL
    is `https://`, the host and the text between that `<` and that `>`, and
    it is requested when `http.NewRequest` accepts it and not requested, the
    function returning the error, when it does not. -/
theorem registryPages_next (newRequest : Str → Bool) (server : Str → Option HttpResp)
    (host : Str) (keep : Str → Bool) (fuel : Nat) (url : Str) (names : List Str)
    (resp : HttpResp) (pageList : List Str) (hurl : url ≠ [])
    (hreq : newRequest url = true) (hs : server url = some resp)
    (h200 : resp.status = 200) (hn : resp.names = some pageList) :
    ((resp.link = [] ∨ contains resp.link "rel=\"next\"".toList = false ∨
        indexByte resp.link '<' = none ∨ indexByte resp.link '>' = none) →
      registryPages newRequest server host keep (fuel + 1) url names =
        ([url], some (.ok (names ++ pageList.filter keep)))) ∧
    (∀ start stop, contains resp.link "rel=\"next\"".toList = true →
      indexByte resp.link '<' = some start → indexByte resp.link '>' = some stop →
      start < stop →
      (newRequest ("https://".toList ++ host ++ (resp.link.take stop).drop (start + 1)) = true →
        (registryPages newRequest server host keep (fuel + 2) url names).1.take 2 =
          [url, "https://".toList ++ host ++ (resp.link.take stop).drop (start + 1)]) ∧
      (newRequest ("https://".toList ++ host ++ (resp.link.take stop).drop (start + 1)) = false →
        registryPages newRequest server host keep (fuel + 2) url names =
          ([url], some (.error .badURL)))) := by
  refine ⟨fun h => ?_, fun start stop hrel h1 h2 hlt => ?_⟩
  · rw [registryPages_step newRequest server host keep fuel url names resp pageList [] hurl
      hreq hs h200 hn (nextURL_stop host _ h)]
    unfold registryPages
    simp
  · have hnx := nextURL_of_brackets host resp.link start stop hrel h1 h2 hlt
    have hne : "https://".toList ++ host ++ (resp.link.take stop).drop (start + 1) ≠ [] := by
      simp
    rw [registryPages_step newRequest server host keep (fuel + 1) url names resp pageList _
      hurl hreq hs h200 hn hnx]
    refine ⟨fun hacc => ?_, fun hrej => ?_⟩
    · have := registryPages_first newRequest server host keep fuel _
        (names ++ pageList.filter keep) hne hacc
      simp only [List.take_succ_cons, this]
    · rw [registryPages_rejected newRequest server host keep fuel _ _ hne hrej]

/-- C7 at the failing inputs.  For the `Link` header
    `</v2/_catalog?n=100&last=a>; rel="prev", </v2/_catalog?n=100&last=m>; rel="next"`
    the program finds `rel="next"` in the header and then takes the first
    `<...>` of the whole header: the next request of the catalog loop and of
    the tag loop goes to the URL of the `rel="prev"` entry, not to the URL of
    the `rel="next"` entry.  For the header
    `<https://reg.io/v2/_catalog?n=100&last=m>; rel="next"`, whose URL is
    absolute, the next URL is that URL with `https://reg.io` put in front. -/
theorem next_request_takes_first_entry :
    nextURL "reg.io".toList
        ("</v2/_catalog?n=100&last=a>; rel=\"prev\", ".toList ++
          "</v2/_catalog?n=100&last=m>; rel=\"next\"".toList) =
      .ok "https://reg.io/v2/_catalog?n=100&last=a".toList ∧
    (listRepositoriesRegistry (fun _ => true) (fun url =>
        if url = "https://reg.io/v2/_catalog?n=100".toList then
          some ⟨200, [], some ["a/x".toList],
            "</v2/_catalog?n=100&last=a>; rel=\"prev\", ".toList ++
              "</v2/_catalog?n=100&last=m>; rel=\"next\"".toList⟩
        else some ⟨200, [], some [], []⟩) 3 "https://reg.io".toList []).1 =
      ["https://reg.io/v2/_catalog?n=100".toList,
       "https://reg.io/v2/_catalog?n=100&last=a".toList] ∧
    (listTags (fun repoPath => repoPath) (fun _ => true) (fun url =>
        if url = "https://reg.io/v2/nginx/tags/list?n=100".toList then
          some ⟨200, [], some ["1.27".toList],
            "</v2/nginx/tags/list?n=100&last=a>; rel=\"prev\", ".toList ++
              "</v2/nginx/tags/list?n=100&last=m>; rel=\"next\"".toList⟩
        else some ⟨200, [], some [], []⟩) 3 "https://reg.io".toList "nginx".toList).1 =
      ["https://reg.io/v2/nginx/tags/list?n=100".toList,
       "https://reg.io/v2/nginx/tags/list?n=100&last=a".toList] ∧
    "https://reg.io/v2/_catalog?n=100&last=a".toList ≠
      "https://reg.io".toList ++ "/v2/_catalog?n=100&last=m".toList ∧
    nextURL "reg.io".toList "<https://reg.io/v2/_catalog?n=100&last=m>; rel=\"next\"".toList =
      .ok ("https://reg.io".toList ++ "https://reg.io/v2/_catalog?n=100&last=m".toList) ∧
    "https://reg.io".toList ++ "https://reg.io/v2/_catalog?n=100&last=m".toList ≠
      "https://reg.io/v2/_catalog?n=100&last=m".toList := by
  decide

/-- C10 at the failing input: for the `Link` header `>; rel="next", </v2/_catalog>`
    the first `>` (index 0) stands before the first `<` (index 15), the slice
    `link[16:0]` is out of range and the program panics, in the catalog loop
    and in the tag loop alike. -/
theorem nextURL_slice_out_of_range :
    indexByte ">; rel=\"next\", </v2/_catalog>".toList '<' = some 15 ∧
    indexByte ">; rel=\"next\", </v2/_catalog>".toList '>' = some 0 ∧
    nextURL "reg.io".toList ">; rel=\"next\", </v2/_catalog>".toList = .error .panic ∧
    (listRepositoriesRegistry (fun _ => true)
      (fun _ => some ⟨200, [], some [], ">; rel=\"next\", </v2/_catalog>".toList⟩) 3
      "https://reg.io".toList []).2 = some (.error .panic) ∧
    (listTags (fun repoPath => repoPath) (fun _ => true)
      (fun _ => some ⟨200, [], some [], ">; rel=\"next\", </v2/_catalog>".toList⟩) 3
      "https://reg.io".toList "nginx".toList).2 = some (.error .panic) := by
  decide

/-! ## Empty tag after the last colon: theorems -/

theorem trimPrefix_append_colon (p : Str) :
    trimPrefix (p ++ [':']) ['/'] = trimPrefix p ['/'] ++ [':'] := by
  cases p with
  | nil => rfl
  | cons x xs =>
    by_cases hx : x = '/'
    · simp [trimPrefix, hasPrefix, hx]
    · have hx2 : ¬ '/' = x := fun e => hx e.symm
      simp [trimPrefix, hasPrefix, hx2]

theorem parsePath_trailing_colon (p : Str) :
    parsePath (p ++ [':']) = (trimPrefix p ['/'], []) :=
  parsePath_colon (trimPrefix_append_colon p) (by simp)

theorem resolve_congr (listing : Str → Except Err (List Str)) {a b : Str}
    (h : parsePath a = parsePath b) : resolve listing a = resolve listing b := by
  simp only [resolve, h]

theorem resolve_specificTag (listing : Str → Except Err (List Str)) (inputPath : Str)
    (r : Resolution) (h : resolve listing inputPath = .ok r) :
    r.specificTag = (parsePath inputPath).2 ∧ r.pfx = listingPrefix (parsePath inputPath).1 := by
  unfold resolve at h
  simp only at h
  split at h
  · simp at h
  · split at h
    · simp only [Except.ok.injEq] at h
      rw [← h]
      exact ⟨rfl, rfl⟩
    · simp only [Except.ok.injEq] at h
      rw [← h]
      exact ⟨rfl, rfl⟩

/-- C11, as stated, fails: the input `library:1.27:` ends in its last colon,
    yet it does not run as the input `library:1.27` does: the first lists
    under `library:1.27/` without an explicit tag, the second lists under
    `library/` with the explicit tag `1.27`.  As a command-line argument the
    input `:` lists the whole registry, while the empty argument is replaced
    by `/library`. -/
theorem trailing_colon_not_as_without :
    resolve (fun _ => .ok []) "library:1.27:".toList =
      .ok ⟨"library:1.27/".toList, ["library:1.27".toList], true, []⟩ ∧
    resolve (fun _ => .ok []) "library:1.27".toList =
      .ok ⟨"library/".toList, ["library".toList], true, "1.27".toList⟩ ∧
    listingPrefix (parsePath (inputPathOf ["imagesync".toList, ":".toList])).1 = [] ∧
    listingPrefix (parsePath (inputPathOf ["imagesync".toList, []])).1 = "library/".toList := by
  decide

/-- C11, amended: for every input `p` followed by a final colon, the resolver
    strips the colon from the path and selects no explicit tag: the path is
    all of `p` (less one leading `/`), also when `p` itself contains a colon,
    the listing prefix is built from it, and the selector is AllTags or
    LatestOnly.  When `p` contains no colon the run is the run for the input
    path `p`: same listing prefix, same resolved repositories and the same
    selector; as a command-line argument this holds for non-empty `p` (the
    empty argument is replaced by `/library`). -/
theorem resolve_trailing_colon (listing : Str → Except Err (List Str)) (p : Str) :
    parsePath (p ++ [':']) = (trimPrefix p ['/'], []) ∧
    (∀ L, listing (listingPrefix (trimPrefix p ['/'])) = .ok L →
      resolve listing (p ++ [':']) =
        if L = [] ∧ trimPrefix p ['/'] ≠ [] then
          .ok ⟨listingPrefix (trimPrefix p ['/']), [trimSuffix (trimPrefix p ['/']) ['/']],
            true, []⟩
        else .ok ⟨listingPrefix (trimPrefix p ['/']), L, false, []⟩) ∧
    (∀ r, resolve listing (p ++ [':']) = .ok r →
      r.specificTag = [] ∧ r.pfx = listingPrefix (trimPrefix p ['/']) ∧
      tagSelector r = if r.isSpecific then .AllTags else .LatestOnly) ∧
    (':' ∉ p →
      listingPrefix (parsePath (p ++ [':'])).1 = listingPrefix (parsePath p).1 ∧
      resolve listing (p ++ [':']) = resolve listing p ∧
      (p ≠ [] → ∀ prog, resolve listing (inputPathOf [prog, p ++ [':']]) =
        resolve listing (inputPathOf [prog, p]))) := by
  have h1 := parsePath_trailing_colon p
  refine ⟨h1, fun L hL => resolve_eq listing _ _ [] L h1 hL, fun r hr => ?_, fun hp => ?_⟩
  · obtain ⟨hs, hx⟩ := resolve_specificTag listing _ r hr
    rw [h1] at hs hx
    exact ⟨hs, hx, by simp [tagSelector, hs]⟩
  · have h2 := parsePath_no_colon hp
    have h3 : resolve listing (p ++ [':']) = resolve listing p :=
      resolve_congr listing (h1.trans h2.symm)
    refine ⟨by rw [h1, h2], h3, fun hne prog => ?_⟩
    have e1 : inputPathOf [prog, p ++ [':']] = p ++ [':'] := by
      simp [inputPathOf]
    have e2 : inputPathOf [prog, p] = p := by
      simp [inputPathOf, hne]
    rw [e1, e2, h3]

/-- Witness of the amended C11: the input `library/nginx:` runs as
    `library/nginx`. -/
theorem resolve_trailing_colon_witness :
    resolve (fun _ => .ok []) "library/nginx:".toList =
      resolve (fun _ => .ok []) "library/nginx".toList :=
  ((resolve_trailing_colon (fun _ => .ok []) "library/nginx".toList).2.2.2 (by decide)).2.1

end ImageSync
